import Mathlib

/-!
Shallow embedding of `src/scripts/extract-country-mapping.py`.

The script reads a CSV with columns `REF_AREA` and `REF_AREA_LABEL`,
builds a deduplicated code → label map (a Python dict, so last write wins
and insertion order is kept), sorts the items, prints two source-code
snippet blocks, and serializes `{nameToCode, codeToName}` as JSON with
2-space indentation and `ensure_ascii=False`.

Python dicts are modelled as association lists with in-place update
(`dictInsert`), which preserves Python's insertion-order semantics.
-/

namespace ExtractCountryMapping

/-- The characters Python's `str.strip()` with no argument removes: exactly
those with `str.isspace()` true, i.e. code points 9-13, 28-32, 0x85 (NEL),
0xA0 (NBSP), 0x1680, 0x2000-0x200A, 0x2028, 0x2029, 0x202F, 0x205F and
0x3000. -/
def isPySpace (c : Char) : Bool :=
  decide ((9 ≤ c.toNat ∧ c.toNat ≤ 13) ∨ (28 ≤ c.toNat ∧ c.toNat ≤ 32) ∨
    c.toNat = 133 ∨ c.toNat = 160 ∨ c.toNat = 5760 ∨
    (8192 ≤ c.toNat ∧ c.toNat ≤ 8202) ∨ c.toNat = 8232 ∨ c.toNat = 8233 ∨
    c.toNat = 8239 ∨ c.toNat = 8287 ∨ c.toNat = 12288)

/-- Embedding of Python `str.strip()`: drop whitespace from both ends. -/
def pyStrip (s : String) : String :=
  String.mk (((s.data.dropWhile isPySpace).reverse.dropWhile isPySpace).reverse)

/-- One CSV row as seen through `csv.DictReader`: the two fields the script
reads, each possibly absent (`row.get(col, '')` yields `""` when absent). -/
structure Row where
  ref_area : Option String
  ref_area_label : Option String
deriving DecidableEq

/-- `row.get('REF_AREA', '').strip()` -/
def rowCode (r : Row) : String := pyStrip (r.ref_area.getD "")

/-- `row.get('REF_AREA_LABEL', '').strip()` -/
def rowName (r : Row) : String := pyStrip (r.ref_area_label.getD "")

/-- Python dict assignment `m[k] = v`: update the value in place when the key
is present (keeping its position), append otherwise. -/
def dictInsert : List (String × String) → String → String → List (String × String)
  | [], k, v => [(k, v)]
  | (k', v') :: rest, k, v =>
      if k' = k then (k, v) :: rest else (k', v') :: dictInsert rest k v

/-- Python dict lookup `m[k]` / `m.get(k)`. -/
def dictLookup : List (String × String) → String → Option String
  | [], _ => none
  | (k', v') :: rest, k => if k' = k then some v' else dictLookup rest k

/-- One iteration of the loop building `country_map`:
`if code and name: country_map[code] = name`. -/
def insertRow (m : List (String × String)) (r : Row) : List (String × String) :=
  if rowCode r ≠ "" ∧ rowName r ≠ "" then dictInsert m (rowCode r) (rowName r) else m

/-- The loop of `extract_country_mapping` building `country_map`:
strip both fields and insert when both are non-empty. -/
def country_map (rows : List Row) : List (String × String) :=
  rows.foldl insertRow []

/-- Python string comparison on character lists: lexicographic by
Unicode code point. -/
def strLtB : List Char → List Char → Bool
  | _, [] => false
  | [], _ :: _ => true
  | a :: as, b :: bs =>
      if a.toNat < b.toNat then true
      else if b.toNat < a.toNat then false
      else strLtB as bs

/-- `s < t` for Python strings. -/
def strLt (s t : String) : Prop := strLtB s.data t.data = true

/-- `s <= t` for Python strings. -/
def strLe (s t : String) : Prop := strLt s t ∨ s = t

instance (s t : String) : Decidable (strLt s t) :=
  inferInstanceAs (Decidable (_ = true))

instance (s t : String) : Decidable (strLe s t) :=
  inferInstanceAs (Decidable (_ ∨ _))

/-- The comparison used by Python's `sorted(country_map.items())`:
lexicographic on the `(code, name)` tuple. -/
def pairLe (p q : String × String) : Prop :=
  strLt p.1 q.1 ∨ (p.1 = q.1 ∧ strLe p.2 q.2)

instance : DecidableRel pairLe := fun p q => by
  unfold pairLe; infer_instance

/-- `sorted_countries = sorted(country_map.items())` (a stable sort by the
tuple order; keys are distinct so any stable sort agrees with Timsort). -/
def sorted_countries (rows : List Row) : List (String × String) :=
  List.insertionSort pairLe (country_map rows)

/-- `{name: code for code, name in sorted_countries}` as dict construction. -/
def nameToCode (rows : List Row) : List (String × String) :=
  (sorted_countries rows).foldl (fun m p => dictInsert m p.2 p.1) []

/-- `dict(sorted_countries)` as dict construction. -/
def codeToName (rows : List Row) : List (String × String) :=
  (sorted_countries rows).foldl (fun m p => dictInsert m p.1 p.2) []

/-- `name.replace("'", "\\'")` on the character list. -/
def escChar (c : Char) : List Char :=
  if c = '\'' then ['\\', '\''] else [c]

/-- Embedding of `name.replace("'", "\\'")`. -/
def escapeSq (s : String) : String :=
  String.mk (s.data.flatMap escChar)

/-- The hard-coded input path of the script. -/
def csv_file : String := "../data/48-indicators/IMF_GFSE_GE_G14.csv"

/-- The fixed relative output path. -/
def output_file : String := "country-mapping.json"

/-- A snippet line of the `IMF_COUNTRY_MAP` block:
`print(f"  '{escaped_name}': '{code}',")`. -/
def nameToCodeLine (p : String × String) : String :=
  "  '" ++ escapeSq p.2 ++ "': '" ++ p.1 ++ "',"

/-- A snippet line of the `CODE_TO_NAME` block:
`print(f"  '{code}': '{escaped_name}',")`. -/
def codeToNameLine (p : String × String) : String :=
  "  '" ++ p.1 ++ "': '" ++ escapeSq p.2 ++ "',"

/-- `"=" * 80` -/
def eq80 : String := String.mk (List.replicate 80 '=')

/-- Escaping of one character by Python's `json.dump` with
`ensure_ascii=False`: only the backslash, the double quote and control
characters are escaped; everything from space upward, non-ASCII included,
is emitted literally. -/
def jsonEscChar (c : Char) : List Char :=
  if c = '\\' then ['\\', '\\']
  else if c = '"' then ['\\', '"']
  else if c = '\n' then ['\\', 'n']
  else if c = '\r' then ['\\', 'r']
  else if c = '\t' then ['\\', 't']
  else if c.toNat = 8 then ['\\', 'b']
  else if c.toNat = 12 then ['\\', 'f']
  else if c.toNat < 32 then
    ['\\', 'u', '0', '0',
     (if c.toNat / 16 < 10 then Char.ofNat (48 + c.toNat / 16)
      else Char.ofNat (87 + c.toNat / 16)),
     (if c.toNat % 16 < 10 then Char.ofNat (48 + c.toNat % 16)
      else Char.ofNat (87 + c.toNat % 16))]
  else [c]

/-- A JSON string literal as `json.dump(..., ensure_ascii=False)` writes it. -/
def jsonStr (s : String) : String :=
  "\"" ++ String.mk (s.data.flatMap jsonEscChar) ++ "\""

/-- One entry line of an inner dict at `indent=2`, nesting depth 2. -/
def jsonEntry (p : String × String) : String :=
  "    " ++ jsonStr p.1 ++ ": " ++ jsonStr p.2

/-- An inner (string-to-string) JSON object at nesting depth 1, rendered as
`json.dump` with `indent=2` renders it. -/
def jsonInner (pairs : List (String × String)) : String :=
  match pairs with
  | [] => "\x7b\x7d"
  | _ => "\x7b\n" ++ String.intercalate ",\n" (pairs.map jsonEntry) ++ "\n  \x7d"

/-- The whole serialized document:
`json.dump({'nameToCode': d1, 'codeToName': d2}, f, indent=2, ensure_ascii=False)`. -/
def jsonDump (d1 d2 : List (String × String)) : String :=
  "\x7b\n  \"nameToCode\": " ++ jsonInner d1 ++
    ",\n  \"codeToName\": " ++ jsonInner d2 ++ "\n\x7d"

/-- Observable effects of one run: the sequence of `print` arguments and the
file written (path and content), if any. -/
structure RunOutput where
  stdout : List String
  written : Option (String × String)
deriving DecidableEq

/-- Embedding of `extract_country_mapping()`.  The input is `none` when the
hard-coded CSV path does not exist, otherwise `some rows`.  The function
returns normally in both cases (the Python function `return`s early on a
missing file and the process exits with status 0 either way). -/
def extract_country_mapping (input : Option (List Row)) : RunOutput :=
  match input with
  | none => ⟨["Error: " ++ csv_file ++ " not found"], none⟩
  | some rows =>
      let sorted := sorted_countries rows
      let n := sorted.length
      ⟨["Found " ++ toString n ++ " unique countries\n",
        eq80,
        "COUNTRY CODE MAPPING (for countryMapping.js)",
        eq80,
        "\n// Extracted from IMF data - REF_AREA_LABEL to REF_AREA",
        "const IMF_COUNTRY_MAP = \x7b"]
       ++ sorted.map nameToCodeLine
       ++ ["\x7d\n",
           "\n// Reverse mapping (code to name) for display",
           "const CODE_TO_NAME = \x7b"]
       ++ sorted.map codeToNameLine
       ++ ["\x7d\n",
           "\n✅ Mapping saved to " ++ output_file,
           "✅ Total countries: " ++ toString n],
       some (output_file, jsonDump (nameToCode rows) (codeToName rows))⟩

/-! ### Spec-side definitions

These follow the wording of the claims, to be compared with the embedded
code above. -/

/-- The `(code, label)` pair a row contributes, when valid: both fields
trimmed, kept only when both are non-empty. -/
def validPair (r : Row) : Option (String × String) :=
  if rowCode r ≠ "" ∧ rowName r ≠ "" then some (rowCode r, rowName r) else none

/-- The trimmed pairs of the valid rows, in file order. -/
def validPairs (rows : List Row) : List (String × String) :=
  rows.filterMap validPair

/-- The last element of `l` whose `f`-projection equals `k`
("the last row in file order bearing that code"). -/
def lastMatch (f : String × String → String) (k : String) :
    List (String × String) → Option (String × String)
  | [] => none
  | p :: t =>
      match lastMatch f k t with
      | some q => some q
      | none => if f p = k then some p else none

/-- Successive dict insertion of the `f`-keyed, `g`-valued projections of a
list of pairs, the common shape of `country_map`, `nameToCode` and
`codeToName`. -/
def buildWith (f g : String × String → String) (m0 : List (String × String))
    (l : List (String × String)) : List (String × String) :=
  l.foldl (fun m p => dictInsert m (f p) (g p)) m0

/-- A string that is non-empty and carries no leading or trailing
whitespace. -/
def goodStr (s : String) : Prop :=
  s ≠ "" ∧ (∀ c, s.data.head? = some c → isPySpace c = false) ∧
    (∀ c, s.data.getLast? = some c → isPySpace c = false)

/-- The end-to-end example input of the spec. -/
def ex6 : List Row :=
  [⟨some "US", some "United States"⟩,
   ⟨some "US", some "United States of America"⟩,
   ⟨some "FR", some "France"⟩]

/-- Two codes sharing one label: the counterexample input for the two-sided
inverse property. -/
def exDup : List Row := [⟨some "A", some "X"⟩, ⟨some "B", some "X"⟩]

/-- Two codes sharing one label, used to exercise the one-directional round
trip. -/
def exDup2 : List Row := [⟨some "AA", some "Same"⟩, ⟨some "BB", some "Same"⟩]

/-- An input whose label contains a single quote. -/
def exQuote : List Row := [⟨some "CI", some "Cote d'Ivoire"⟩]

/-! ### Order facts for the Python string comparison -/

theorem charEq_of_toNat {a b : Char} (h : a.toNat = b.toNat) : a = b :=
  Char.eq_of_val_eq (UInt32.toNat.inj h)

theorem strEq_of_data {s t : String} (h : s.data = t.data) : s = t := by
  cases s; cases t; cases h; rfl

theorem strLtB_irrefl (l : List Char) : strLtB l l = false := by
  induction l with
  | nil => rfl
  | cons a t ih => simp [strLtB, ih]

theorem strLtB_trans {l₁ l₂ l₃ : List Char} (h₁ : strLtB l₁ l₂ = true)
    (h₂ : strLtB l₂ l₃ = true) : strLtB l₁ l₃ = true := by
  induction l₁ generalizing l₂ l₃ with
  | nil =>
    cases l₃ with
    | nil =>
      cases l₂ with
      | nil => exact h₂
      | cons b bs => simp [strLtB] at h₂
    | cons c cs => rfl
  | cons a as ih =>
    cases l₂ with
    | nil => simp [strLtB] at h₁
    | cons b bs =>
      cases l₃ with
      | nil => simp [strLtB] at h₂
      | cons c cs =>
        simp only [strLtB] at h₁ h₂ ⊢
        rcases Nat.lt_trichotomy a.toNat b.toNat with hab | hab | hab
        · have hcb : ¬ c.toNat < b.toNat := by
            intro hcb
            rw [if_neg (by omega), if_pos hcb] at h₂
            exact Bool.false_ne_true h₂
          rw [if_pos (by omega)]
        · rw [if_neg (by omega), if_neg (by omega)] at h₁
          rcases Nat.lt_trichotomy b.toNat c.toNat with hbc | hbc | hbc
          · rw [if_pos (by omega)]
          · rw [if_neg (by omega), if_neg (by omega)] at h₂ ⊢
            exact ih h₁ h₂
          · rw [if_neg (by omega), if_pos hbc] at h₂
            exact absurd h₂ Bool.false_ne_true
        · rw [if_neg (by omega), if_pos hab] at h₁
          exact absurd h₁ Bool.false_ne_true

theorem strLtB_antisymm {l₁ l₂ : List Char} (h₁ : strLtB l₁ l₂ = false)
    (h₂ : strLtB l₂ l₁ = false) : l₁ = l₂ := by
  induction l₁ generalizing l₂ with
  | nil =>
    cases l₂ with
    | nil => rfl
    | cons b bs => simp [strLtB] at h₁
  | cons a as ih =>
    cases l₂ with
    | nil => simp [strLtB] at h₂
    | cons b bs =>
      simp only [strLtB] at h₁ h₂
      rcases Nat.lt_trichotomy a.toNat b.toNat with hab | hab | hab
      · rw [if_pos hab] at h₁
        exact absurd h₁ (by decide)
      · rw [if_neg (by omega), if_neg (by omega)] at h₁ h₂
        rw [charEq_of_toNat hab, ih h₁ h₂]
      · rw [if_pos hab] at h₂
        exact absurd h₂ (by decide)

theorem strLt_trans {s t u : String} (h₁ : strLt s t) (h₂ : strLt t u) :
    strLt s u := strLtB_trans h₁ h₂

theorem strLt_irrefl (s : String) : ¬ strLt s s := by
  simp [strLt, strLtB_irrefl]

theorem strLe_refl (s : String) : strLe s s := Or.inr rfl

theorem strLe_of_strLt {s t : String} (h : strLt s t) : strLe s t := Or.inl h

theorem strLe_trans {s t u : String} (h₁ : strLe s t) (h₂ : strLe t u) :
    strLe s u := by
  rcases h₁ with h₁ | rfl
  · rcases h₂ with h₂ | rfl
    · exact Or.inl (strLt_trans h₁ h₂)
    · exact Or.inl h₁
  · exact h₂

theorem strLt_or_eq_or_strLt (s t : String) : strLt s t ∨ s = t ∨ strLt t s := by
  by_cases h₁ : strLtB s.data t.data = true
  · exact Or.inl h₁
  · by_cases h₂ : strLtB t.data s.data = true
    · exact Or.inr (Or.inr h₂)
    · exact Or.inr (Or.inl (strEq_of_data
        (strLtB_antisymm (Bool.eq_false_iff.mpr h₁) (Bool.eq_false_iff.mpr h₂))))

theorem strLe_total (s t : String) : strLe s t ∨ strLe t s := by
  rcases strLt_or_eq_or_strLt s t with h | rfl | h
  · exact Or.inl (Or.inl h)
  · exact Or.inl (strLe_refl s)
  · exact Or.inr (Or.inl h)

theorem pairLe_total : ∀ p q : String × String, pairLe p q ∨ pairLe q p := by
  intro p q
  rcases strLt_or_eq_or_strLt p.1 q.1 with h | h | h
  · exact Or.inl (Or.inl h)
  · rcases strLe_total p.2 q.2 with h2 | h2
    · exact Or.inl (Or.inr ⟨h, h2⟩)
    · exact Or.inr (Or.inr ⟨h.symm, h2⟩)
  · exact Or.inr (Or.inl h)

theorem pairLe_trans : ∀ p q r : String × String,
    pairLe p q → pairLe q r → pairLe p r := by
  intro p q r hpq hqr
  rcases hpq with h1 | ⟨e1, l1⟩
  · rcases hqr with h2 | ⟨e2, _⟩
    · exact Or.inl (strLt_trans h1 h2)
    · exact Or.inl (e2 ▸ h1)
  · rcases hqr with h2 | ⟨e2, l2⟩
    · exact Or.inl (e1 ▸ h2)
    · exact Or.inr ⟨e1.trans e2, strLe_trans l1 l2⟩

/-! ### Dict lemmas -/

theorem dictLookup_dictInsert (m : List (String × String)) (k v k' : String) :
    dictLookup (dictInsert m k v) k' = if k' = k then some v else dictLookup m k' := by
  induction m with
  | nil =>
    by_cases h : k' = k
    · subst h; simp [dictInsert, dictLookup]
    · simp [dictInsert, dictLookup, h, Ne.symm h]
  | cons p t ih =>
    obtain ⟨pk, pv⟩ := p
    by_cases hpk : pk = k
    · subst hpk
      by_cases h : k' = pk
      · subst h; simp [dictInsert, dictLookup]
      · simp [dictInsert, dictLookup, h, Ne.symm h]
    · by_cases h : pk = k'
      · subst h
        simp [dictInsert, dictLookup, hpk, Ne.symm hpk]
      · simp [dictInsert, dictLookup, hpk, h, ih]

theorem mem_dictInsert {p : String × String} {k v : String} :
    ∀ {m : List (String × String)}, p ∈ dictInsert m k v → p = (k, v) ∨ p ∈ m := by
  intro m
  induction m with
  | nil => intro h; simpa [dictInsert] using h
  | cons q t ih =>
    intro h
    obtain ⟨qk, qv⟩ := q
    by_cases hq : qk = k
    · subst hq
      simp only [dictInsert, if_pos rfl] at h
      rcases List.mem_cons.mp h with h1 | h2
      · exact Or.inl h1
      · exact Or.inr (List.mem_cons_of_mem _ h2)
    · simp only [dictInsert, if_neg hq] at h
      rcases List.mem_cons.mp h with h1 | h2
      · exact Or.inr (List.mem_cons.mpr (Or.inl h1))
      · rcases ih h2 with h' | h'
        · exact Or.inl h'
        · exact Or.inr (List.mem_cons_of_mem _ h')

theorem keys_dictInsert (m : List (String × String)) (k v : String) :
    (dictInsert m k v).map Prod.fst =
      if k ∈ m.map Prod.fst then m.map Prod.fst else m.map Prod.fst ++ [k] := by
  induction m with
  | nil => simp [dictInsert]
  | cons q t ih =>
    obtain ⟨qk, qv⟩ := q
    by_cases hq : qk = k
    · subst hq
      simp [dictInsert]
    · have hkq : ¬ k = qk := Ne.symm hq
      simp only [dictInsert, if_neg hq, List.map_cons, List.mem_cons, ih]
      by_cases hk : k ∈ t.map Prod.fst <;> simp [hk, hkq]

theorem nodup_keys_dictInsert {m : List (String × String)} {k v : String}
    (h : (m.map Prod.fst).Nodup) : ((dictInsert m k v).map Prod.fst).Nodup := by
  rw [keys_dictInsert]
  by_cases hk : k ∈ m.map Prod.fst
  · simpa [hk]
  · simp [hk, List.nodup_append, h]

theorem dictInsert_of_not_mem {m : List (String × String)} {k : String}
    (h : k ∉ m.map Prod.fst) (v : String) : dictInsert m k v = m ++ [(k, v)] := by
  induction m with
  | nil => simp [dictInsert]
  | cons q t ih =>
    obtain ⟨qk, qv⟩ := q
    simp only [List.map_cons, List.mem_cons] at h
    push_neg at h
    have hq : ¬ qk = k := fun e => h.1 e.symm
    simp [dictInsert, hq, ih h.2]

theorem dictLookup_of_mem_nodup {l : List (String × String)}
    (hnd : (l.map Prod.fst).Nodup) {p : String × String} (hp : p ∈ l) :
    dictLookup l p.1 = some p.2 := by
  induction l with
  | nil => simp at hp
  | cons q t ih =>
    obtain ⟨qk, qv⟩ := q
    simp only [List.map_cons, List.nodup_cons] at hnd
    rcases List.mem_cons.mp hp with h | h
    · subst h; simp [dictLookup]
    · have hne : ¬ qk = p.1 := by
        intro e
        exact hnd.1 (e ▸ List.mem_map_of_mem Prod.fst h)
      simp [dictLookup, hne, ih hnd.2 h]

/-! ### buildWith lemmas -/

theorem dictLookup_buildWith (f g : String × String → String)
    (l : List (String × String)) (m0 : List (String × String)) (k : String) :
    dictLookup (buildWith f g m0 l) k =
      match lastMatch f k l with
      | some p => some (g p)
      | none => dictLookup m0 k := by
  induction l generalizing m0 with
  | nil => simp [buildWith, lastMatch]
  | cons p t ih =>
    show dictLookup (buildWith f g (dictInsert m0 (f p) (g p)) t) k = _
    rw [ih]
    cases hm : lastMatch f k t with
    | some q => simp [lastMatch, hm]
    | none =>
      simp only [lastMatch, hm]
      rw [dictLookup_dictInsert]
      by_cases h : f p = k
      · subst h; simp
      · simp [h, Ne.symm h]

theorem mem_buildWith {f g : String × String → String}
    {l m0 : List (String × String)} {p : String × String}
    (h : p ∈ buildWith f g m0 l) : p ∈ m0 ∨ ∃ q ∈ l, p = (f q, g q) := by
  induction l generalizing m0 with
  | nil => exact Or.inl h
  | cons q t ih =>
    rcases ih h with h' | ⟨r, hr, hpr⟩
    · rcases mem_dictInsert h' with h'' | h''
      · exact Or.inr ⟨q, List.mem_cons_self _ _, h''⟩
      · exact Or.inl h''
    · exact Or.inr ⟨r, List.mem_cons_of_mem _ hr, hpr⟩

theorem nodup_keys_buildWith (f g : String × String → String)
    {m0 : List (String × String)} (l : List (String × String))
    (h : (m0.map Prod.fst).Nodup) :
    ((buildWith f g m0 l).map Prod.fst).Nodup := by
  induction l generalizing m0 with
  | nil => exact h
  | cons q t ih => exact ih (nodup_keys_dictInsert h)

theorem buildWith_eq_append {m0 l : List (String × String)}
    (hdisj : ∀ k ∈ l.map Prod.fst, k ∉ m0.map Prod.fst)
    (hnd : (l.map Prod.fst).Nodup) :
    buildWith Prod.fst Prod.snd m0 l = m0 ++ l := by
  induction l generalizing m0 with
  | nil => simp [buildWith]
  | cons p t ih =>
    simp only [List.map_cons, List.nodup_cons] at hnd
    have hp : p.1 ∉ m0.map Prod.fst :=
      hdisj p.1 (by simp)
    show buildWith Prod.fst Prod.snd (dictInsert m0 p.1 p.2) t = m0 ++ p :: t
    rw [dictInsert_of_not_mem hp]
    have : buildWith Prod.fst Prod.snd (m0 ++ [(p.1, p.2)]) t =
        (m0 ++ [(p.1, p.2)]) ++ t := by
      refine ih ?_ hnd.2
      intro k hk
      simp only [List.map_append, List.mem_append, List.map_cons, List.map_nil]
      push_neg
      refine ⟨hdisj k (by simp [hk]), ?_⟩
      intro e
      simp only [List.mem_singleton] at e
      exact hnd.1 (e ▸ hk)
    rw [this]
    simp

/-! ### country_map, sorting and lastMatch -/

theorem foldl_insertRow (rows : List Row) :
    ∀ m0, rows.foldl insertRow m0 = buildWith Prod.fst Prod.snd m0 (validPairs rows) := by
  induction rows with
  | nil => intro m0; simp [validPairs, buildWith]
  | cons r t ih =>
    intro m0
    show t.foldl insertRow (insertRow m0 r) = _
    by_cases h : rowCode r ≠ "" ∧ rowName r ≠ ""
    · have hv : validPairs (r :: t) = (rowCode r, rowName r) :: validPairs t := by
        simp only [validPairs, List.filterMap_cons, validPair, if_pos h]
      have hins : insertRow m0 r = dictInsert m0 (rowCode r) (rowName r) := by
        simp only [insertRow, if_pos h]
      rw [hins, ih, hv]
      rfl
    · have hv : validPairs (r :: t) = validPairs t := by
        simp only [validPairs, List.filterMap_cons, validPair, if_neg h]
      have hins : insertRow m0 r = m0 := by
        simp only [insertRow, if_neg h]
      rw [hins, ih, hv]

theorem country_map_eq (rows : List Row) :
    country_map rows = buildWith Prod.fst Prod.snd [] (validPairs rows) :=
  foldl_insertRow rows []

theorem nameToCode_eq (rows : List Row) :
    nameToCode rows = buildWith Prod.snd Prod.fst [] (sorted_countries rows) := rfl

theorem codeToName_eq (rows : List Row) :
    codeToName rows = buildWith Prod.fst Prod.snd [] (sorted_countries rows) := rfl

theorem nodup_keys_country_map (rows : List Row) :
    ((country_map rows).map Prod.fst).Nodup := by
  rw [country_map_eq]
  exact nodup_keys_buildWith _ _ _ (by simp)

theorem sorted_perm (rows : List Row) :
    List.Perm (sorted_countries rows) (country_map rows) :=
  List.perm_insertionSort _ _

theorem nodup_keys_sorted (rows : List Row) :
    ((sorted_countries rows).map Prod.fst).Nodup :=
  ((sorted_perm rows).map Prod.fst).nodup_iff.mpr (nodup_keys_country_map rows)

theorem sorted_pairwise_pairLe (rows : List Row) :
    (sorted_countries rows).Pairwise pairLe := by
  have htot : IsTotal (String × String) pairLe := ⟨pairLe_total⟩
  have htrans : IsTrans (String × String) pairLe := ⟨pairLe_trans⟩
  exact @List.sorted_insertionSort _ pairLe _ htot htrans (country_map rows)

theorem sorted_pairwise_lt (rows : List Row) :
    (sorted_countries rows).Pairwise (fun p q => strLt p.1 q.1) := by
  have h1 := sorted_pairwise_pairLe rows
  have h2 : (sorted_countries rows).Pairwise (fun p q : String × String => p.1 ≠ q.1) :=
    List.pairwise_map.mp (nodup_keys_sorted rows)
  refine (h1.and h2).imp ?_
  intro p q h
  rcases h with ⟨hle | ⟨he, _⟩, hne⟩
  · exact hle
  · exact absurd he hne

theorem codeToName_eq_sorted (rows : List Row) :
    codeToName rows = sorted_countries rows := by
  rw [codeToName_eq]
  have h := @buildWith_eq_append [] (sorted_countries rows)
    (by simp) (nodup_keys_sorted rows)
  simpa using h

theorem lastMatch_mem {f : String × String → String} {k : String} :
    ∀ {l : List (String × String)} {r}, lastMatch f k l = some r → r ∈ l ∧ f r = k := by
  intro l
  induction l with
  | nil => intro r h; simp [lastMatch] at h
  | cons p t ih =>
    intro r h
    simp only [lastMatch] at h
    cases hm : lastMatch f k t with
    | some q =>
      rw [hm] at h
      simp only [Option.some.injEq] at h
      subst h
      rcases ih hm with ⟨h1, h2⟩
      exact ⟨List.mem_cons_of_mem _ h1, h2⟩
    | none =>
      rw [hm] at h
      by_cases hf : f p = k
      · rw [if_pos hf] at h
        simp only [Option.some.injEq] at h
        subst h
        exact ⟨List.mem_cons_self _ _, hf⟩
      · rw [if_neg hf] at h
        exact absurd h (by simp)

theorem lastMatch_eq_none {f : String × String → String} {k : String} :
    ∀ {l : List (String × String)}, lastMatch f k l = none → ∀ p ∈ l, f p ≠ k := by
  intro l
  induction l with
  | nil => intro _ p hp; simp at hp
  | cons q t ih =>
    intro h p hp
    simp only [lastMatch] at h
    cases hm : lastMatch f k t with
    | some r => rw [hm] at h; exact absurd h (by simp)
    | none =>
      rw [hm] at h
      by_cases hf : f q = k
      · rw [if_pos hf] at h; exact absurd h (by simp)
      · rcases List.mem_cons.mp hp with rfl | hpt
        · exact hf
        · exact ih hm p hpt

theorem lastMatch_isSome {f : String × String → String} {k : String}
    {l : List (String × String)} {p : String × String}
    (hp : p ∈ l) (hf : f p = k) : ∃ r, lastMatch f k l = some r := by
  cases hm : lastMatch f k l with
  | some r => exact ⟨r, rfl⟩
  | none => exact absurd hf (lastMatch_eq_none hm p hp)

theorem lastMatch_greatest {k : String} :
    ∀ {l : List (String × String)} {r},
      l.Pairwise (fun p q => strLt p.1 q.1) → lastMatch Prod.snd k l = some r →
      ∀ p ∈ l, p.2 = k → strLe p.1 r.1 := by
  intro l
  induction l with
  | nil => intro r _ h; simp [lastMatch] at h
  | cons q t ih =>
    intro r hpw h p hp hpk
    have hq : ∀ x ∈ t, strLt q.1 x.1 := (List.pairwise_cons.mp hpw).1
    have hpw' := (List.pairwise_cons.mp hpw).2
    simp only [lastMatch] at h
    cases hm : lastMatch Prod.snd k t with
    | some r' =>
      rw [hm] at h
      simp only [Option.some.injEq] at h
      subst h
      rcases List.mem_cons.mp hp with rfl | hpt
      · exact strLe_of_strLt (hq r' (lastMatch_mem hm).1)
      · exact ih hpw' hm p hpt hpk
    | none =>
      rw [hm] at h
      by_cases hf : q.2 = k
      · rw [if_pos hf] at h
        simp only [Option.some.injEq] at h
        subst h
        rcases List.mem_cons.mp hp with rfl | hpt
        · exact strLe_refl _
        · exact absurd hpk (lastMatch_eq_none hm p hpt)
      · rw [if_neg hf] at h
        exact absurd h (by simp)

/-! ### validPair and pyStrip -/

theorem validPair_eq_some {r : Row} {p : String × String}
    (h : validPair r = some p) :
    p = (rowCode r, rowName r) ∧ rowCode r ≠ "" ∧ rowName r ≠ "" := by
  unfold validPair at h
  by_cases hc : rowCode r ≠ "" ∧ rowName r ≠ ""
  · rw [if_pos hc] at h
    exact ⟨(Option.some.inj h).symm, hc⟩
  · rw [if_neg hc] at h
    exact absurd h (by simp)

theorem head?_dropWhile_not {p : Char → Bool} :
    ∀ {l : List Char} {c : Char}, (l.dropWhile p).head? = some c → p c = false := by
  intro l
  induction l with
  | nil => intro c h; simp at h
  | cons a t ih =>
    intro c h
    by_cases ha : p a
    · rw [List.dropWhile_cons, if_pos ha] at h
      exact ih h
    · rw [List.dropWhile_cons, if_neg ha] at h
      simp only [List.head?_cons, Option.some.injEq] at h
      subst h
      simpa using ha

theorem getLast?_dropWhile {p : Char → Bool} :
    ∀ {l : List Char}, l.dropWhile p ≠ [] →
      (l.dropWhile p).getLast? = l.getLast? := by
  intro l
  induction l with
  | nil => intro h; simp at h
  | cons a t ih =>
    intro h
    by_cases ha : p a
    · rw [List.dropWhile_cons, if_pos ha] at h ⊢
      rw [ih h]
      have ht : t ≠ [] := by rintro rfl; simp at h
      cases t with
      | nil => exact absurd rfl ht
      | cons b t' => rw [List.getLast?_cons_cons]
    · rw [List.dropWhile_cons, if_neg ha]

theorem pyStrip_data (s : String) :
    (pyStrip s).data =
      ((s.data.dropWhile isPySpace).reverse.dropWhile isPySpace).reverse := rfl

theorem pyStrip_head {s : String} {c : Char}
    (h : (pyStrip s).data.head? = some c) : isPySpace c = false := by
  rw [pyStrip_data, List.head?_reverse] at h
  have hne : (s.data.dropWhile isPySpace).reverse.dropWhile isPySpace ≠ [] := by
    intro e
    rw [e] at h
    simp at h
  rw [getLast?_dropWhile hne, List.getLast?_reverse] at h
  exact head?_dropWhile_not h

theorem pyStrip_last {s : String} {c : Char}
    (h : (pyStrip s).data.getLast? = some c) : isPySpace c = false := by
  rw [pyStrip_data, List.getLast?_reverse] at h
  exact head?_dropWhile_not h

theorem good_of_validPair {r : Row} {p : String × String}
    (h : validPair r = some p) : goodStr p.1 ∧ goodStr p.2 := by
  obtain ⟨hp, hc, hn⟩ := validPair_eq_some h
  subst hp
  refine ⟨⟨hc, ?_, ?_⟩, ⟨hn, ?_, ?_⟩⟩
  · intro c hcc; exact pyStrip_head hcc
  · intro c hcc; exact pyStrip_last hcc
  · intro c hcc; exact pyStrip_head hcc
  · intro c hcc; exact pyStrip_last hcc

theorem mem_country_map_valid {rows : List Row} {p : String × String}
    (h : p ∈ country_map rows) : ∃ r ∈ rows, validPair r = some p := by
  rw [country_map_eq] at h
  rcases mem_buildWith h with h' | ⟨q, hq, hpq⟩
  · simp at h'
  · rcases List.mem_filterMap.mp hq with ⟨r, hr, hrq⟩
    refine ⟨r, hr, ?_⟩
    rw [hrq, hpq]

/-! ### Escaping lemmas -/

theorem mk_data (s : String) : String.mk s.data = s := by cases s; rfl

theorem quote_escaped : ∀ (l : List Char) (i : Nat),
    (l.flatMap escChar)[i]? = some '\'' →
    ∃ j, i = j + 1 ∧ (l.flatMap escChar)[j]? = some '\\' := by
  intro l
  induction l with
  | nil => intro i h; simp at h
  | cons c t ih =>
    intro i h
    by_cases hc : c = '\''
    · subst hc
      have he : escChar '\'' = ['\\', '\''] := rfl
      rw [List.flatMap_cons, he, List.cons_append, List.singleton_append] at h ⊢
      rcases i with _ | i
      · rw [List.getElem?_cons_zero] at h
        exact absurd h (by decide)
      · rcases i with _ | n
        · exact ⟨0, rfl, by rw [List.getElem?_cons_zero]⟩
        · rw [List.getElem?_cons_succ, List.getElem?_cons_succ] at h
          obtain ⟨j, hj1, hj2⟩ := ih n h
          refine ⟨j + 2, by omega, ?_⟩
          rw [List.getElem?_cons_succ, List.getElem?_cons_succ]
          exact hj2
    · have he : escChar c = [c] := by simp [escChar, hc]
      rw [List.flatMap_cons, he, List.singleton_append] at h ⊢
      rcases i with _ | n
      · rw [List.getElem?_cons_zero] at h
        exact absurd (Option.some.inj h) hc
      · rw [List.getElem?_cons_succ] at h
        obtain ⟨j, hj1, hj2⟩ := ih n h
        refine ⟨j + 1, by omega, ?_⟩
        rw [List.getElem?_cons_succ]
        exact hj2

theorem flatMap_escChar_id {l : List Char} (h : '\'' ∉ l) :
    l.flatMap escChar = l := by
  induction l with
  | nil => rfl
  | cons c t ih =>
    simp only [List.mem_cons, not_or] at h
    rw [List.flatMap_cons, ih h.2]
    simp [escChar, Ne.symm h.1]

theorem escapeSq_no_quote {s : String} (h : '\'' ∉ s.data) : escapeSq s = s := by
  unfold escapeSq
  rw [flatMap_escChar_id h, mk_data]

theorem jsonEscChar_literal {c : Char} (h32 : 32 ≤ c.toNat) (hq : c ≠ '"')
    (hb : c ≠ '\\') : jsonEscChar c = [c] := by
  have hn : c ≠ '\n' := fun e => absurd (e ▸ h32) (by decide)
  have hr : c ≠ '\r' := fun e => absurd (e ▸ h32) (by decide)
  have ht : c ≠ '\t' := fun e => absurd (e ▸ h32) (by decide)
  have h8 : ¬ c.toNat = 8 := by omega
  have h12 : ¬ c.toNat = 12 := by omega
  have hlt : ¬ c.toNat < 32 := by omega
  unfold jsonEscChar
  rw [if_neg hb, if_neg hq, if_neg hn, if_neg hr, if_neg ht, if_neg h8,
    if_neg h12, if_neg hlt]

theorem flatMap_jsonEscChar_id {l : List Char}
    (h : ∀ c ∈ l, 32 ≤ c.toNat ∧ c ≠ '"' ∧ c ≠ '\\') :
    l.flatMap jsonEscChar = l := by
  induction l with
  | nil => rfl
  | cons c t ih =>
    have hc := h c (List.mem_cons_self _ _)
    rw [List.flatMap_cons, jsonEscChar_literal hc.1 hc.2.1 hc.2.2,
      ih (fun d hd => h d (List.mem_cons_of_mem _ hd)), List.singleton_append]

theorem jsonStr_literal {s : String}
    (h : ∀ c ∈ s.data, 32 ≤ c.toNat ∧ c ≠ '"' ∧ c ≠ '\\') :
    jsonStr s = "\"" ++ s ++ "\"" := by
  unfold jsonStr
  rw [flatMap_jsonEscChar_id h, mk_data]

/-! ### Claim theorems -/

/-- C1: for every input, `country_map` holds exactly one entry per distinct
code (its keys are nodup), and the label stored for a code is the label of
the last valid row in file order bearing that code (last write wins). -/
theorem countryMap_lastWriteWins (rows : List Row) (c : String) :
    ((country_map rows).map Prod.fst).Nodup ∧
    dictLookup (country_map rows) c =
      (lastMatch Prod.fst c (validPairs rows)).map Prod.snd := by
  refine ⟨nodup_keys_country_map rows, ?_⟩
  rw [country_map_eq, dictLookup_buildWith]
  cases hm : lastMatch Prod.fst c (validPairs rows) with
  | some p => simp
  | none => simp [dictLookup]

/-- Witness for C1 at the end-to-end example input. -/
theorem countryMap_lastWriteWins_witness :
    ((country_map ex6).map Prod.fst).Nodup ∧
    dictLookup (country_map ex6) "US" =
      (lastMatch Prod.fst "US" (validPairs ex6)).map Prod.snd :=
  countryMap_lastWriteWins ex6 "US"

/-- C2 counterexample: with two codes sharing one label, `codeToName` and
`nameToCode` are not two-sided inverses: `codeToName` maps `A ↦ X` but
`nameToCode` maps `X` back to `B`. -/
theorem mapsInverse_counterexample :
    ¬ (∀ p ∈ codeToName exDup, dictLookup (nameToCode exDup) p.2 = some p.1) := by
  decide

/-- C2 (amended): when distinct retained codes never share a label, the two
serialized maps are exact inverses; the direction from `nameToCode` back
through `codeToName` holds unconditionally. -/
theorem mapsInverse_of_injectiveLabels (rows : List Row)
    (hinj : ∀ p ∈ country_map rows, ∀ q ∈ country_map rows,
      p.2 = q.2 → p.1 = q.1) :
    (∀ p ∈ codeToName rows, dictLookup (nameToCode rows) p.2 = some p.1) ∧
    (∀ q ∈ nameToCode rows, dictLookup (codeToName rows) q.2 = some q.1) := by
  have hsinj : ∀ p ∈ sorted_countries rows, ∀ q ∈ sorted_countries rows,
      p.2 = q.2 → p.1 = q.1 := by
    intro p hp q hq
    exact hinj p ((sorted_perm rows).mem_iff.mp hp) q
      ((sorted_perm rows).mem_iff.mp hq)
  constructor
  · intro p hp
    rw [codeToName_eq_sorted] at hp
    rw [nameToCode_eq, dictLookup_buildWith]
    obtain ⟨r, hr⟩ := @lastMatch_isSome Prod.snd p.2 (sorted_countries rows) p hp rfl
    rw [hr]
    obtain ⟨hrmem, hrk⟩ := lastMatch_mem hr
    show some r.1 = some p.1
    exact congrArg some (hsinj r hrmem p hp hrk)
  · intro q hq
    rw [nameToCode_eq] at hq
    rcases mem_buildWith hq with h' | ⟨s, hs, rfl⟩
    · simp at h'
    · rw [codeToName_eq_sorted]
      exact dictLookup_of_mem_nodup (nodup_keys_sorted rows) hs

/-- Witness for the amended C2 at the end-to-end example input. -/
theorem mapsInverse_witness :
    dictLookup (nameToCode ex6) "France" = some "FR" :=
  (mapsInverse_of_injectiveLabels ex6 (by decide)).1 ("FR", "France") (by decide)

/-- C3: a row whose trimmed code or trimmed label is empty contributes
nothing: removing it changes neither `country_map` nor any output of the
run; a missing field is read as the empty string. -/
theorem invalidRows_dropped (pre post : List Row) (r : Row)
    (h : rowCode r = "" ∨ rowName r = "") :
    country_map (pre ++ r :: post) = country_map (pre ++ post) ∧
    extract_country_mapping (some (pre ++ r :: post)) =
      extract_country_mapping (some (pre ++ post)) ∧
    (∀ o : Option String, rowCode ⟨none, o⟩ = "" ∧ rowName ⟨o, none⟩ = "") := by
  have hbad : ¬ (rowCode r ≠ "" ∧ rowName r ≠ "") := by
    rcases h with h | h <;> simp [h]
  have hcm : country_map (pre ++ r :: post) = country_map (pre ++ post) := by
    unfold country_map
    rw [List.foldl_append, List.foldl_append, List.foldl_cons]
    rw [show insertRow (pre.foldl insertRow []) r = pre.foldl insertRow [] from by
      simp only [insertRow, if_neg hbad]]
  have hs : sorted_countries (pre ++ r :: post) = sorted_countries (pre ++ post) := by
    unfold sorted_countries
    rw [hcm]
  have hn : nameToCode (pre ++ r :: post) = nameToCode (pre ++ post) := by
    unfold nameToCode
    rw [hs]
  have hc : codeToName (pre ++ r :: post) = codeToName (pre ++ post) := by
    unfold codeToName
    rw [hs]
  refine ⟨hcm, ?_, ?_⟩
  · simp only [extract_country_mapping]
    rw [hs, hn, hc]
  · intro o
    exact ⟨rfl, rfl⟩

/-- Witness for C3: an all-whitespace code row is dropped. -/
theorem invalidRows_dropped_witness :
    (rowCode ⟨some " ", some "X"⟩ = "" ∨ rowName ⟨some " ", some "X"⟩ = "") ∧
    (country_map (ex6 ++ ⟨some " ", some "X"⟩ :: []) = country_map (ex6 ++ []) ∧
     extract_country_mapping (some (ex6 ++ ⟨some " ", some "X"⟩ :: [])) =
       extract_country_mapping (some (ex6 ++ [])) ∧
     (∀ o : Option String, rowCode ⟨none, o⟩ = "" ∧ rowName ⟨o, none⟩ = "")) :=
  ⟨by decide, invalidRows_dropped ex6 [] ⟨some " ", some "X"⟩ (by decide)⟩

/-- C4: the sorted sequence is strictly ascending by code and is a
permutation of the table, so it lists each retained code exactly once in
increasing order. -/
theorem sorted_strictAscending (rows : List Row) :
    (sorted_countries rows).Pairwise (fun p q => strLt p.1 q.1) ∧
    List.Perm (sorted_countries rows) (country_map rows) :=
  ⟨sorted_pairwise_lt rows, sorted_perm rows⟩

/-- Witness for C4 at the end-to-end example input. -/
theorem sorted_strictAscending_witness :
    (sorted_countries ex6).Pairwise (fun p q => strLt p.1 q.1) ∧
    List.Perm (sorted_countries ex6) (country_map ex6) :=
  sorted_strictAscending ex6

/-- C5: a missing input file prints exactly one error line containing the
hard-coded path and writes nothing; the run writes no output file exactly
when the input file is missing (the function returns normally, exit 0, in
every case). -/
theorem missingInput_behavior :
    extract_country_mapping none =
      ⟨["Error: " ++ csv_file ++ " not found"], none⟩ ∧
    (∀ input, ((extract_country_mapping input).written = none ↔ input = none)) := by
  refine ⟨rfl, ?_⟩
  intro input
  cases input with
  | none => simp [extract_country_mapping]
  | some rows => simp [extract_country_mapping]

/-- Witness for C5: the behavior at the two input shapes. -/
theorem missingInput_behavior_witness :
    extract_country_mapping none =
      ⟨["Error: " ++ csv_file ++ " not found"], none⟩ ∧
    ((extract_country_mapping (some ex6)).written = none ↔ some ex6 = none) :=
  ⟨missingInput_behavior.1, missingInput_behavior.2 (some ex6)⟩

/-- C6: the end-to-end example: last write wins for the duplicate `US`,
the sorted order is `FR` then `US`, both serialized maps are as the spec
states, and the written JSON document is exactly the expected text. -/
theorem endToEnd_example :
    country_map ex6 = [("US", "United States of America"), ("FR", "France")] ∧
    sorted_countries ex6 = [("FR", "France"), ("US", "United States of America")] ∧
    nameToCode ex6 = [("France", "FR"), ("United States of America", "US")] ∧
    codeToName ex6 = [("FR", "France"), ("US", "United States of America")] ∧
    (extract_country_mapping (some ex6)).written = some (output_file,
      "\x7b\n  \"nameToCode\": \x7b\n    \"France\": \"FR\",\n    \"United States of America\": \"US\"\n  \x7d,\n  \"codeToName\": \x7b\n    \"FR\": \"France\",\n    \"US\": \"United States of America\"\n  \x7d\n\x7d") := by
  refine ⟨by decide, by decide, by decide, by decide, by decide⟩

/-- C7: both snippet blocks of standard output carry a line for every
sorted entry; a label free of single quotes renders unchanged, and in an
escaped label every single quote is preceded by a backslash. -/
theorem snippet_quoteEscaping (rows : List Row) (p : String × String)
    (hp : p ∈ sorted_countries rows) :
    nameToCodeLine p ∈ (extract_country_mapping (some rows)).stdout ∧
    codeToNameLine p ∈ (extract_country_mapping (some rows)).stdout ∧
    ('\'' ∉ p.2.data → escapeSq p.2 = p.2) ∧
    (∀ i : Nat, (escapeSq p.2).data[i]? = some '\'' →
      ∃ j, i = j + 1 ∧ (escapeSq p.2).data[j]? = some '\\') := by
  refine ⟨?_, ?_, fun h => escapeSq_no_quote h, fun i h => quote_escaped p.2.data i h⟩
  · simp only [extract_country_mapping, List.mem_append]
    exact Or.inl (Or.inl (Or.inl (Or.inr (List.mem_map_of_mem _ hp))))
  · simp only [extract_country_mapping, List.mem_append]
    exact Or.inl (Or.inr (List.mem_map_of_mem _ hp))

/-- Witness for C7 at an input whose label contains a single quote. -/
theorem snippet_quoteEscaping_witness :
    nameToCodeLine ("CI", "Cote d'Ivoire") ∈
      (extract_country_mapping (some exQuote)).stdout ∧
    codeToNameLine ("CI", "Cote d'Ivoire") ∈
      (extract_country_mapping (some exQuote)).stdout ∧
    ('\'' ∉ "Cote d'Ivoire".data → escapeSq "Cote d'Ivoire" = "Cote d'Ivoire") ∧
    (∀ i : Nat, (escapeSq "Cote d'Ivoire").data[i]? = some '\'' →
      ∃ j, i = j + 1 ∧ (escapeSq "Cote d'Ivoire").data[j]? = some '\\') :=
  snippet_quoteEscaping exQuote ("CI", "Cote d'Ivoire") (by decide)

/-- C8: every successful run writes to the fixed path
`country-mapping.json` the dump of the object with the two keys
`nameToCode` and `codeToName` built from the sorted sequence; the dump
keeps every printable character, non-ASCII included, literal, and indents
with two spaces per nesting level. -/
theorem json_output_shape (rows : List Row) :
    (extract_country_mapping (some rows)).written =
      some (output_file, jsonDump (nameToCode rows) (codeToName rows)) ∧
    output_file = "country-mapping.json" ∧
    (∀ c : Char, 32 ≤ c.toNat → c ≠ '"' → c ≠ '\\' → jsonEscChar c = [c]) ∧
    (∀ s : String, (∀ c ∈ s.data, 32 ≤ c.toNat ∧ c ≠ '"' ∧ c ≠ '\\') →
      jsonStr s = "\"" ++ s ++ "\"") ∧
    jsonDump [("k", "v")] [] =
      "\x7b\n  \"nameToCode\": \x7b\n    \"k\": \"v\"\n  \x7d,\n  \"codeToName\": \x7b\x7d\n\x7d" := by
  refine ⟨rfl, rfl, ?_, ?_, by decide⟩
  · intro c h1 h2 h3
    exact jsonEscChar_literal h1 h2 h3
  · intro s h
    exact jsonStr_literal h

/-- Witness for C8 at the end-to-end example input. -/
theorem json_output_shape_witness :
    (extract_country_mapping (some ex6)).written =
      some (output_file, jsonDump (nameToCode ex6) (codeToName ex6)) :=
  (json_output_shape ex6).1

/-- C9: every code and label reaching `country_map`, the sorted sequence
or either serialized map is non-empty and carries no leading or trailing
whitespace. -/
theorem entries_trimmed_nonempty (rows : List Row) (p : String × String)
    (hp : p ∈ country_map rows ∨ p ∈ sorted_countries rows ∨
      p ∈ codeToName rows ∨ p ∈ nameToCode rows) :
    goodStr p.1 ∧ goodStr p.2 := by
  have hcm : ∀ {q : String × String}, q ∈ country_map rows →
      goodStr q.1 ∧ goodStr q.2 := by
    intro q hq
    obtain ⟨r, _, hr⟩ := mem_country_map_valid hq
    exact good_of_validPair hr
  have hsorted : ∀ {q : String × String}, q ∈ sorted_countries rows →
      goodStr q.1 ∧ goodStr q.2 := by
    intro q hq
    exact hcm ((sorted_perm rows).mem_iff.mp hq)
  rcases hp with hp | hp | hp | hp
  · exact hcm hp
  · exact hsorted hp
  · rw [codeToName_eq_sorted] at hp
    exact hsorted hp
  · rw [nameToCode_eq] at hp
    rcases mem_buildWith hp with h' | ⟨q, hq, rfl⟩
    · simp at h'
    · exact ⟨(hsorted hq).2, (hsorted hq).1⟩

/-- Witness for C9 at the end-to-end example input. -/
theorem entries_trimmed_witness : goodStr "FR" ∧ goodStr "France" :=
  entries_trimmed_nonempty ex6 ("FR", "France") (Or.inl (by decide))

/-- C10: every label key of `nameToCode` round-trips: `codeToName` maps
its stored code back to the label, the stored pair comes from the sorted
sequence, and the stored code is the lexicographically greatest code
bearing that label. -/
theorem nameToCode_roundTrip (rows : List Row) (label c : String)
    (h : dictLookup (nameToCode rows) label = some c) :
    dictLookup (codeToName rows) c = some label ∧
    (c, label) ∈ sorted_countries rows ∧
    (∀ c', (c', label) ∈ sorted_countries rows → strLe c' c) := by
  rw [nameToCode_eq, dictLookup_buildWith] at h
  cases hm : lastMatch Prod.snd label (sorted_countries rows) with
  | none =>
    rw [hm] at h
    exact absurd h (by simp [dictLookup])
  | some r =>
    rw [hm] at h
    have hc : r.1 = c := by simpa using h
    obtain ⟨hrmem, hrlab⟩ := lastMatch_mem hm
    have hpair : (c, label) = r := by
      rw [← hc, ← hrlab]
    refine ⟨?_, hpair ▸ hrmem, ?_⟩
    · rw [codeToName_eq_sorted]
      exact dictLookup_of_mem_nodup (nodup_keys_sorted rows) (hpair ▸ hrmem)
    · intro c' hc'
      have hle := lastMatch_greatest (sorted_pairwise_lt rows) hm (c', label) hc' rfl
      rw [hc] at hle
      exact hle

/-- Witness for C10 at an input where two codes share one label. -/
theorem nameToCode_roundTrip_witness :
    dictLookup (codeToName exDup2) "BB" = some "Same" ∧
    ("BB", "Same") ∈ sorted_countries exDup2 ∧
    (∀ c', (c', "Same") ∈ sorted_countries exDup2 → strLe c' "BB") :=
  nameToCode_roundTrip exDup2 "Same" "BB" (by decide)

end ExtractCountryMapping
